import Mathlib

/-!
Verification development for the `voy` arXiv-following CLI
(`src/voy/models.py`, `src/voy/voy.py`, `src/voy/update.py`,
`src/voy/query.py`).

The Python sources are shallowly embedded:

* `Author.normalize_author_name` applies four anchored regular
  expressions in order.  The patterns all have the shape
  `^(.*)\s+ REST $` where `REST` is a short sequence of
  case-insensitive alternations and `\S+` tokens separated by a single
  `\s`.  The embedding below implements exactly this family of
  patterns with Python's backtracking priorities: the leading `(.*)`
  is greedy (longest prefix first, never matching a newline), the
  `\s+` is greedy within a whitespace run, alternations are tried in
  written order, and the `$` anchor accepts the end of the string or a
  single trailing newline.
* fallible constructors (`Author.__post_init__`, `Paper._post_init`)
  become functions into `Except String _`;
* the SQLite tables of `query.py` become association lists inside a
  `DB` structure, and the controller loops over them become pure state
  transformers;
* machine-level details (the xxh3 hash of the external `xxhash`
  dependency) are modelled by a fixed deterministic 64-bit hash, see
  `xxh3_64_intdigest` below.
-/

deriving instance DecidableEq for Except

/-- Characters matched by Python's `\s` class (and stripped by
`str.strip()`): the ASCII whitespace characters together with the
Unicode whitespace code points recognised by CPython. -/
def pyIsSpace (c : Char) : Bool :=
  let v := c.toNat
  v == 32 || v == 9 || v == 10 || v == 13 || v == 11 || v == 12 ||
  v == 0x1c || v == 0x1d || v == 0x1e || v == 0x1f ||
  v == 0x85 || v == 0xa0 || v == 0x1680 ||
  (0x2000 ≤ v && v ≤ 0x200a) ||
  v == 0x2028 || v == 0x2029 || v == 0x202f || v == 0x205f || v == 0x3000

/-- ASCII lower-casing, as applied by `re.IGNORECASE` to the pure-ASCII
alternatives occurring in the name patterns. -/
def pyToLower (c : Char) : Char :=
  if 65 ≤ c.toNat ∧ c.toNat ≤ 90 then Char.ofNat (c.toNat + 32) else c

/-- Case-insensitively strip the alternative `alt` from the front of
`s`, returning the rest of `s` on success. -/
def ciStrip : List Char → List Char → Option (List Char)
  | [], s => some s
  | _ :: _, [] => none
  | a :: as, c :: cs => if pyToLower c = pyToLower a then ciStrip as cs else none

/-- Match `\S+` greedily at the front of `s`: the maximal nonempty run
of non-whitespace characters.  (A shorter match would leave a
non-whitespace character where the pattern requires `\s` or `$`, so
the regex backtracking never accepts one.) -/
def matchTok (s : List Char) : Option (List Char × List Char) :=
  let r := s.takeWhile (fun c => !pyIsSpace c)
  if r.isEmpty then none else some (r, s.drop r.length)

/-- The `$` anchor of `re`: end of input, or just before one trailing
newline. -/
def atEnd (s : List Char) : Bool :=
  s.isEmpty || s == ['\n']

/-- Match `(\S+)$`. -/
def tokEnd (s : List Char) : Option (List Char) :=
  match matchTok s with
  | some (g, s') => if atEnd s' then some g else none
  | none => none

/-- Match one `\s` and continue. -/
def wsOne {α : Type} (s : List Char) (k : List Char → Option α) : Option α :=
  match s with
  | c :: cs => if pyIsSpace c then k cs else none
  | [] => none

/-- Match a capturing alternation `(a1|a2|...)` case-insensitively,
trying the alternatives in written order and backtracking through the
continuation `k`, which receives the captured original-case text and
the rest of the input. -/
def ciAlt {α : Type} (as : List (List Char)) (s : List Char)
    (k : List Char → List Char → Option α) : Option α :=
  as.findSome? fun alt =>
    match ciStrip alt s with
    | some s' => k (s.take alt.length) s'
    | none => none

/-- Match a final capturing alternation followed by `$`. -/
def altsEnd (as : List (List Char)) (s : List Char) : Option (List Char) :=
  as.findSome? fun alt =>
    match ciStrip alt s with
    | some s' => if atEnd s' then some (s.take alt.length) else none
    | none => none

/-- Match `^(.*)\s+` and hand the rest to `k`, with Python's
backtracking priorities: the greedy `(.*)` proposes the longest prefix
first and never contains a newline; for each prefix the greedy `\s+`
proposes the longest whitespace run first and must be nonempty. -/
def dotStarWsPlus {α : Type} (k : List Char → Option α) (s : List Char) :
    Option (List Char × α) :=
  (List.range (s.length + 1)).findSome? fun t =>
    let i := s.length - t
    let g1 := s.take i
    if g1.contains '\n' then none
    else
      let u := s.drop i
      let m := (u.takeWhile pyIsSpace).length
      (List.range m).findSome? fun t2 =>
        let j := m - t2
        match k (u.drop j) with
        | some a => some (g1, a)
        | none => none

/-- The nobiliary-particle alternatives of `PREFIX_MATCH` in
`models.py`, in their written order. -/
def PREFIX_ALTS : List (List Char) :=
  ["van", "der", "de", "la", "von", "del", "della", "da", "mac", "ter",
   "dem", "di", "vaziri"].map String.data

/-- The generational-suffix alternatives of the `name-name-prefix`
pattern, in their written order (`Sr\.`/`Jr\.` have a literal dot). -/
def SUFFIX_ALTS : List (List Char) :=
  ["I", "II", "III", "IV", "V", "Sr", "Jr", "Sr.", "Jr."].map String.data

/-- Rest of the `double-prefix` pattern:
`(P)\s(P)\s(\S+)$`, yielding the three captures. -/
def restP1 (u : List Char) : Option (List Char × List Char × List Char) :=
  ciAlt PREFIX_ALTS u fun g2 u2 =>
  wsOne u2 fun u3 =>
  ciAlt PREFIX_ALTS u3 fun g3 u4 =>
  wsOne u4 fun u5 =>
  (tokEnd u5).map fun g4 => (g2, g3, g4)

/-- Rest of the `name-prefix-name` pattern: `(P)\s(\S+)$`. -/
def restP2 (u : List Char) : Option (List Char × List Char) :=
  ciAlt PREFIX_ALTS u fun g2 u2 =>
  wsOne u2 fun u3 =>
  (tokEnd u3).map fun g3 => (g2, g3)

/-- Rest of the `name-name-prefix` pattern: `(\S+)\s(SUF)$`. -/
def restP3 (u : List Char) : Option (List Char × List Char) :=
  match matchTok u with
  | some (g2, u2) =>
      wsOne u2 fun u3 => (altsEnd SUFFIX_ALTS u3).map fun g3 => (g2, g3)
  | none => none

/-- Rest of the `name-name` pattern: `(\S+)$`. -/
def restP4 (u : List Char) : Option (List Char) :=
  tokEnd u

/-- Embedding of `Author.normalize_author_name` (`models.py`): try the
four patterns in order and rebuild `(family, given, suffix)` from the
captures exactly as the Python branches do; if nothing matches, fall
back to `(name, "", "")`. -/
def Author.normalize_author_name (name : String) : String × String × String :=
  match dotStarWsPlus restP1 name.data with
  | some (g1, g2, g3, g4) =>
      (String.mk g2 ++ " " ++ String.mk g3 ++ " " ++ String.mk g4, String.mk g1, "")
  | none =>
  match dotStarWsPlus restP2 name.data with
  | some (g1, g2, g3) =>
      (String.mk g2 ++ " " ++ String.mk g3, String.mk g1, "")
  | none =>
  match dotStarWsPlus restP3 name.data with
  | some (g1, g2, g3) => (String.mk g2, String.mk g1, String.mk g3)
  | none =>
  match dotStarWsPlus restP4 name.data with
  | some (g1, g2) => (String.mk g2, String.mk g1, "")
  | none => (name, "", "")

/-- Python `str.strip()`: remove leading and trailing whitespace. -/
def pyStrip (s : String) : String :=
  String.mk (((s.data.dropWhile pyIsSpace).reverse.dropWhile pyIsSpace).reverse)

/-- Model of the external `xxhash` dependency's `xxh3_64_intdigest`
(the library is not part of this repository): a fixed, seedless,
deterministic 64-bit hash of the string's code points.  The theorems
below rely only on the hash being a deterministic function of its
input and, for the concrete counterexample, on two specific distinct
strings receiving distinct values — properties the real xxh3 shares. -/
def xxh3_64_intdigest (s : String) : Nat :=
  s.data.foldl (fun h c => ((h ^^^ c.toNat) * 1099511628211) % (2 ^ 64))
    14695981039346656037

/-- One lowercase hexadecimal digit. -/
def hexChar (n : Nat) : Char :=
  if n < 10 then Char.ofNat (48 + n) else Char.ofNat (87 + n)

/-- Sixteen-digit zero-padded lowercase hex rendering of a 64-bit value,
as produced by `xxh3_64_hexdigest`. -/
def toHex16 (n : Nat) : String :=
  String.mk ((List.range 16).map fun i => hexChar ((n / 16 ^ (15 - i)) % 16))

/-- Model of `xxh3_64_hexdigest`: the hex rendering of the 64-bit hash. -/
def xxh3_64_hexdigest (s : String) : String :=
  toHex16 (xxh3_64_intdigest s)

/-- Embedding of the `Author` dataclass of `models.py`.  The `_papers`
attribute is kept apart (see `AuthorObj` below) because it would make
`Author` and `Paper` mutually recursive. -/
structure Author where
  last_name : String
  other_names : String
  name_suffix : String
  id : String
  _followed : Option Bool
deriving DecidableEq, Repr

/-- The canonical join string of `Author.__hstr` / `Author.__str__`:
`"<other> <last> <suffix>"` when the suffix is non-empty (Python
truthiness of the string), else `"<other> <last>"`. -/
def hstr (last other sfx : String) : String :=
  if sfx ≠ "" then other ++ " " ++ last ++ " " ++ sfx else other ++ " " ++ last

/-- Embedding of `Author.__str__` (identical to `Author.__hstr`). -/
def strOfAuthor (a : Author) : String :=
  hstr a.last_name a.other_names a.name_suffix

/-- Embedding of `Author.__init__` + `Author.__post_init__`
(`models.py`): assert a non-blank last name, compute the hash of the
canonical join string, assign it when no id was supplied, and assert
that the resulting id equals the computed hash.  Assertion failures
become `Except.error`. -/
def mkAuthor (last other sfx : String) (id? : Option String) :
    Except String Author :=
  if pyStrip last = "" then
    .error "Author should have a last name"
  else
    let hid := xxh3_64_hexdigest (hstr last other sfx)
    let theId := id?.getD hid
    if theId = hid then .ok ⟨last, other, sfx, theId, none⟩
    else .error "id mismatch"

/-- Embedding of `Author.from_string`: normalize, then construct from
the resulting `(last, other, suffix)` triple. -/
def Author.from_string (s : String) : Except String Author :=
  mkAuthor (Author.normalize_author_name s).1 (Author.normalize_author_name s).2.1
    (Author.normalize_author_name s).2.2 none

/-- The canonical join string of a normalization result triple. -/
def hstr3 (t : String × String × String) : String :=
  hstr t.1 t.2.1 t.2.2

/-- Embedding of the `PaperMeta` dataclass of `models.py` (`version`
is declared `int` there). -/
structure PaperMeta where
  title : String
  abstract : String
  authors : List Author
  version : Int
  categories : List String
deriving DecidableEq, Repr

/-- Embedding of the `Paper` attributes of `models.py`. -/
structure Paper where
  id : String
  created : String
  updated : String
  meta : PaperMeta
  visible : Bool
deriving DecidableEq, Repr

/-- Python string comparison `a <= b`: lexicographic on code points. -/
def lexLe : List Char → List Char → Bool
  | [], _ => true
  | _ :: _, [] => false
  | a :: as, b :: bs =>
      if a.toNat < b.toNat then true
      else if b.toNat < a.toNat then false
      else lexLe as bs

/-- Numeric value of two ASCII digits. -/
def d2 (a b : Char) : Nat :=
  (a.toNat - 48) * 10 + (b.toNat - 48)

/-- CPython `_strptime` directive `%Y`: exactly four digits. -/
def pY {α : Type} (k : Nat → List Char → Option α) : List Char → Option α
  | a :: b :: c :: d :: rest =>
      if a.isDigit && b.isDigit && c.isDigit && d.isDigit then
        k (d2 a b * 100 + d2 c d) rest
      else none
  | _ => none

/-- Directive `%m`: `1[0-2]|0[1-9]|[1-9]` (two digits tried first). -/
def pMo {α : Type} (k : Nat → List Char → Option α) (s : List Char) : Option α :=
  (match s with
   | a :: b :: rest =>
       if (a = '1' && '0' ≤ b && b ≤ '2') || (a = '0' && '1' ≤ b && b ≤ '9') then
         k (d2 a b) rest
       else none
   | _ => none).orElse fun _ =>
  match s with
  | a :: rest => if '1' ≤ a && a ≤ '9' then k (a.toNat - 48) rest else none
  | _ => none

/-- Directive `%d`: `3[01]|[12]\d|0[1-9]|[1-9]`. -/
def pD {α : Type} (k : Nat → List Char → Option α) (s : List Char) : Option α :=
  (match s with
   | a :: b :: rest =>
       if (a = '3' && '0' ≤ b && b ≤ '1') || ('1' ≤ a && a ≤ '2' && b.isDigit) ||
          (a = '0' && '1' ≤ b && b ≤ '9') then
         k (d2 a b) rest
       else none
   | _ => none).orElse fun _ =>
  match s with
  | a :: rest => if '1' ≤ a && a ≤ '9' then k (a.toNat - 48) rest else none
  | _ => none

/-- Directive `%H`: `2[0-3]|[0-1]\d|\d`. -/
def pH {α : Type} (k : Nat → List Char → Option α) (s : List Char) : Option α :=
  (match s with
   | a :: b :: rest =>
       if (a = '2' && '0' ≤ b && b ≤ '3') || ('0' ≤ a && a ≤ '1' && b.isDigit) then
         k (d2 a b) rest
       else none
   | _ => none).orElse fun _ =>
  match s with
  | a :: rest => if a.isDigit then k (a.toNat - 48) rest else none
  | _ => none

/-- Directive `%M`: `[0-5]\d|\d`. -/
def pMi {α : Type} (k : Nat → List Char → Option α) (s : List Char) : Option α :=
  (match s with
   | a :: b :: rest =>
       if '0' ≤ a && a ≤ '5' && b.isDigit then k (d2 a b) rest else none
   | _ => none).orElse fun _ =>
  match s with
  | a :: rest => if a.isDigit then k (a.toNat - 48) rest else none
  | _ => none

/-- Directive `%S`: `6[0-1]|[0-5]\d|\d` (leap seconds are matched by the
regex and rejected later by the `datetime` constructor). -/
def pS {α : Type} (k : Nat → List Char → Option α) (s : List Char) : Option α :=
  (match s with
   | a :: b :: rest =>
       if (a = '6' && '0' ≤ b && b ≤ '1') || ('0' ≤ a && a ≤ '5' && b.isDigit) then
         k (d2 a b) rest
       else none
   | _ => none).orElse fun _ =>
  match s with
  | a :: rest => if a.isDigit then k (a.toNat - 48) rest else none
  | _ => none

/-- A literal character of the format string. -/
def pLit {α : Type} (c : Char) (k : List Char → Option α) : List Char → Option α
  | d :: rest => if d = c then k rest else none
  | [] => none

/-- A whitespace run in the format string becomes `\s+`. -/
def pWsPlus {α : Type} (k : List Char → Option α) (s : List Char) : Option α :=
  let m := (s.takeWhile pyIsSpace).length
  if m = 0 then none else k (s.drop m)

/-- Parse a string against the canonical format `"%Y-%m-%d %H:%M:%S"`
exactly as CPython's `_strptime` regex does, requiring the whole input
to be consumed, and return `(year, month, day, hour, minute, second)`. -/
def strptimeFields (s : List Char) :
    Option (Nat × Nat × Nat × Nat × Nat × Nat) :=
  pY (fun y =>
    pLit '-' (pMo (fun mo =>
      pLit '-' (pD (fun d =>
        pWsPlus (pH (fun h =>
          pLit ':' (pMi (fun mi =>
            pLit ':' (pS (fun sec rest =>
              if rest.isEmpty then some (y, mo, d, h, mi, sec) else none))))))))))) s

/-- Gregorian leap year, as used by `datetime`. -/
def isLeap (y : Nat) : Bool :=
  y % 4 = 0 && (y % 100 ≠ 0 || y % 400 = 0)

/-- Days in a month, as used by `datetime`. -/
def daysInMonth (y m : Nat) : Nat :=
  if m = 2 then (if isLeap y then 29 else 28)
  else if m = 4 || m = 6 || m = 9 || m = 11 then 30
  else 31

/-- Embedding of `datetime.strptime(s, Paper.DATE_FMT)` succeeding:
the regex matches the whole string and the `datetime` constructor
accepts the field values (`MINYEAR <= year`, a valid day of month, and
seconds below 60 — the regex itself bounds month, hour and minute). -/
def strptimeOk (s : String) : Bool :=
  match strptimeFields s.data with
  | some (y, mo, d, _h, _mi, sec) =>
      1 ≤ y && 1 ≤ d && d ≤ daysInMonth y mo && sec ≤ 59
  | none => false

/-- Embedding of `Paper.__init__` + `Paper._post_init` (`models.py`):
an empty id raises (`IndexError` on `id[-1]`), a last character `'v'`
fails the versioned-id assertion, `updated` must parse under the
canonical timestamp format, and `created <= updated` (Python string
comparison). -/
def mkPaper (id created updated : String) (meta : PaperMeta)
    (visible : Bool) : Except String Paper :=
  match id.data.getLast? with
  | none => .error "IndexError: string index out of range"
  | some c =>
      if c = 'v' then .error (id ++ " is not a valid arxiv identifier.")
      else if !strptimeOk updated then
        .error (updated ++ " is not a valid sqlite datetime")
      else if !lexLe created.data updated.data then
        .error "Cant update before publishing"
      else .ok ⟨id, created, updated, meta, visible⟩

/-- A row of the `paper` table of `query.py` (the `meta` column is a
deterministic serialization of `PaperMeta`; row equality in the model
corresponds to byte-identity of the stored row). -/
structure PaperRow where
  updated : String
  created : String
  meta : PaperMeta
  visible : Bool
deriving DecidableEq, Repr

/-- A row of the `author` table of `query.py`. -/
structure AuthorRow where
  id : String
  last_name : String
  other_names : String
  name_suffix : String
  followed : Bool
deriving DecidableEq, Repr

/-- The SQLite store of `query.py`: the `paper` table keyed by primary
key, the `author` table, and the append-only `authorship` relation of
`(author_id, paper_id)` pairs. -/
structure DB where
  paper : List (String × PaperRow)
  author : List AuthorRow
  authorship : List (String × String)
deriving DecidableEq, Repr

/-- The row written by `Q.add_paper`: the INSERT lists no `visible`
column, so the schema default `1` applies. -/
def rowOfInsert (p : Paper) : PaperRow :=
  ⟨p.updated, p.created, p.meta, true⟩

/-- The row values written by `Q.update_paper` (`SET created, updated,
meta, visible WHERE id`). -/
def rowOfUpdate (p : Paper) : PaperRow :=
  ⟨p.updated, p.created, p.meta, p.visible⟩

/-- Embedding of `Q.update_paper`: rewrite the row whose key matches. -/
def update_paper (t : List (String × PaperRow)) (id : String) (r : PaperRow) :
    List (String × PaperRow) :=
  t.map fun kv => if kv.1 = id then (kv.1, r) else kv

/-- The row written by `AuthorDB.save` on the new-paper path of
`voy.update`, where `author._followed = False` was just assigned. -/
def authorSaveRow (a : Author) : AuthorRow :=
  ⟨a.id, a.last_name, a.other_names, a.name_suffix, false⟩

/-- The counters of `voy.update`. -/
structure Counters where
  old_cnt : Nat
  new_cnt : Nat
  upd_cnt : Nat
deriving DecidableEq, Repr

/-- The body of the co-author loop on the new-paper path of
`voy.update` (`voy.py`): insert the author if its id is not yet in the
author table (never auto-followed), then append the authorship edge
for every listed author. -/
def authorStep (pid : String) (d : DB) (a : Author) : DB :=
  let d1 :=
    if d.author.any (fun r => r.id == a.id) then d
    else { d with author := d.author ++ [authorSaveRow a] }
  { d1 with authorship := d1.authorship ++ [(a.id, pid)] }

/-- Embedding of one iteration of the per-paper reconciliation loop of
`voy.update` (`voy.py` lines 169–196).  Returns the new store, the new
counters, and whether `log.error` fired (the fetched-version-lower
invariant violation). -/
def updateStep (db : DB) (c : Counters) (p : Paper) : DB × Counters × Bool :=
  match db.paper.lookup p.id with
  | some old =>
      if old.meta.version = p.meta.version then
        (db, { c with old_cnt := c.old_cnt + 1 }, false)
      else if old.meta.version < p.meta.version then
        ({ db with paper := update_paper db.paper p.id (rowOfUpdate p) },
         { c with upd_cnt := c.upd_cnt + 1 }, false)
      else
        (db, c, true)
  | none =>
      let db1 := { db with paper := db.paper ++ [(p.id, rowOfInsert p)] }
      let db2 := p.meta.authors.foldl (authorStep p.id) db1
      (db2, { c with new_cnt := c.new_cnt + 1 }, false)

/-- `BATCH_SIZE` of `update.py`. -/
def BATCH_SIZE : Nat := 100

/-- Python `sorted` with key `p.updated` modelled by a stable
insertion sort under the code-point order on `updated`. -/
def updLE (p q : Paper) : Prop :=
  lexLe p.updated.data q.updated.data = true

instance : DecidableRel updLE := fun p q => by
  unfold updLE; infer_instance

/-- Stable sort by the `updated` column, as `sorted(..., key=...)`. -/
def sortByUpdated (l : List Paper) : List Paper :=
  List.insertionSort updLE l

/-- The retry loop of `fetch_batch` (`update.py`), with `remaining`
standing for `max_tries - tries`: each attempt reads the next page; a
short page either exhausts the budget (`tries + 1 >= max_tries`, i.e.
`remaining <= 1`) and raises, or sleeps (timing not modelled) and
retries; a full page returns the batch sorted by `updated`. -/
def fetchGo (pages : Nat → List Paper) : Nat → Nat → Except String (List Paper)
  | remaining, idx =>
      let papers := pages idx
      if papers.length = BATCH_SIZE then .ok (sortByUpdated papers)
      else
        match remaining with
        | 0 => .error "arXiv API not reachable, exiting."
        | 1 => .error "arXiv API not reachable, exiting."
        | n + 2 => fetchGo pages (n + 1) (idx + 1)

/-- Modelled from the spec: the upstream fetch of `fetch_batch`
(`get_response`/`parse_response` live in `voy.lib.arxiv`, which is not
among the sources) is modelled as a function from the attempt index to
the list of papers parsed from that attempt's response.  `fetch_batch`
itself follows `update.py` lines 138–169 with `tries` starting at 0. -/
def fetch_batch (pages : Nat → List Paper) (max_tries : Nat := 5) :
    Except String (List Paper) :=
  fetchGo pages max_tries 0

/-- The in-memory author object on which `AuthorDB.get_papers_`
operates: the `Author` value together with its mutable `_papers`
attribute (kept apart from `Author` to avoid mutual recursion with
`Paper`). -/
structure AuthorObj where
  author : Author
  _papers : Option (List Paper)
deriving DecidableEq, Repr

/-- Embedding of `Q.get_papers_by_author_id`: the author row is looked
up, joined through `authorship` to `paper`, and filtered to rows with
`updated BETWEEN :starting_date AND datetime("now")` (SQLite TEXT
comparison, both bounds inclusive); `now` is the query's evaluation
time, made an explicit parameter. -/
def get_papers_by_author_id (db : DB) (aid start now : String) :
    List (String × PaperRow) :=
  if db.author.any (fun r => r.id == aid) then
    ((db.authorship.filter (fun e => e.1 == aid)).filterMap
        (fun e => (db.paper.lookup e.2).map fun r => (e.2, r))).filter
      fun pr => lexLe start.data pr.2.updated.data &&
        lexLe pr.2.updated.data now.data
  else []

/-- The body of the row loop of `AuthorDB.get_papers_`: skip invisible
rows when `only_visible`, otherwise rebuild the `Paper`. -/
def rowsToPapers (rows : List (String × PaperRow)) (only_visible : Bool) :
    List Paper :=
  rows.filterMap fun pr =>
    if only_visible && !pr.2.visible then none
    else some ⟨pr.1, pr.2.created, pr.2.updated, pr.2.meta, pr.2.visible⟩

/-- Embedding of `AuthorDB.get_papers_` (`models.py` lines 279–298):
initialize `_papers` to `[]` only when it is `None`, then append every
fetched row's paper to it. -/
def AuthorDB_get_papers_ (db : DB) (a : AuthorObj) (starting_date now : String)
    (only_visible : Bool) : AuthorObj :=
  let res := get_papers_by_author_id db a.author.id starting_date now
  { a with
    _papers := some (a._papers.getD [] ++ rowsToPapers res only_visible) }

/-! ### Basic lemmas about the regex engine -/

theorem takeWhile_nil_of_none {p : Char → Bool} {l : List Char}
    (h : ∀ c ∈ l, p c = false) : l.takeWhile p = [] := by
  cases l with
  | nil => rfl
  | cons c cs =>
      simp only [List.takeWhile_cons]
      rw [h c (List.mem_cons_self c cs)]
      rfl

theorem dotStarWsPlus_none_of_no_ws {α : Type} (k : List Char → Option α)
    {s : List Char} (h : ∀ c ∈ s, pyIsSpace c = false) :
    dotStarWsPlus k s = none := by
  unfold dotStarWsPlus
  apply List.findSome?_eq_none_iff.mpr
  intro t _
  simp only
  split
  · rfl
  · have hdrop : ∀ c ∈ s.drop (s.length - t), pyIsSpace c = false := by
      intro c hc
      exact h c (List.drop_subset _ _ hc)
    rw [takeWhile_nil_of_none hdrop]
    rfl

theorem normalize_no_ws {name : String}
    (h : ∀ c ∈ name.data, pyIsSpace c = false) :
    Author.normalize_author_name name = (name, "", "") := by
  unfold Author.normalize_author_name
  rw [dotStarWsPlus_none_of_no_ws restP1 h, dotStarWsPlus_none_of_no_ws restP2 h,
    dotStarWsPlus_none_of_no_ws restP3 h, dotStarWsPlus_none_of_no_ws restP4 h]

/-- C4: Name normalization returns the first matching pattern of the
ordered rule list; `"Rémi Munos"` parses as a plain two-token name,
`"Max van der Ven"` as a double-particle name, `"John Smith Jr."` as a
name with generational suffix, and every input without a whitespace
character (in particular every single-token name) falls through to
`(name, "", "")`. -/
theorem normalize_author_name_cases :
    Author.normalize_author_name "Rémi Munos" = ("Munos", "Rémi", "") ∧
    Author.normalize_author_name "Max van der Ven" = ("van der Ven", "Max", "") ∧
    Author.normalize_author_name "John Smith Jr." = ("Smith", "John", "Jr.") ∧
    ∀ name : String, (∀ c ∈ name.data, pyIsSpace c = false) →
      Author.normalize_author_name name = (name, "", "") := by
  refine ⟨by decide, by decide, by decide, ?_⟩
  intro name h
  exact normalize_no_ws h

/-- Witness for `normalize_author_name_cases`: the single-token rule
applied to a concrete whitespace-free name. -/
theorem normalize_author_name_cases_witness :
    Author.normalize_author_name "Hinton" = ("Hinton", "", "") :=
  normalize_author_name_cases.2.2.2 "Hinton" (by decide)

/-! ### Lemmas about `pyStrip` and `mkAuthor` -/

theorem pyStrip_eq_empty_iff (s : String) :
    pyStrip s = "" ↔ ∀ c ∈ s.data, pyIsSpace c = true := by
  constructor
  · intro h c hc
    have h' : ((s.data.dropWhile pyIsSpace).reverse.dropWhile pyIsSpace).reverse
        = [] := congrArg String.data h
    rw [List.reverse_eq_nil_iff] at h'
    have hall : ∀ x ∈ (s.data.dropWhile pyIsSpace).reverse, pyIsSpace x = true :=
      List.dropWhile_eq_nil_iff.mp h'
    have hsplit := List.takeWhile_append_dropWhile (p := pyIsSpace) (l := s.data)
    rw [← hsplit] at hc
    rcases List.mem_append.mp hc with htk | hdr
    · exact List.mem_takeWhile_imp htk
    · exact hall c (List.mem_reverse.mpr hdr)
  · intro h
    have hdw : s.data.dropWhile pyIsSpace = [] :=
      List.dropWhile_eq_nil_iff.mpr fun x hx => h x hx
    simp [pyStrip, hdw]

theorem pyStrip_ne_empty_of_mem {s : String} {c : Char} (hc : c ∈ s.data)
    (hws : pyIsSpace c = false) : pyStrip s ≠ "" := by
  intro h
  have := (pyStrip_eq_empty_iff s).mp h c hc
  rw [hws] at this
  exact Bool.false_ne_true this

theorem mkAuthor_ok_inv {last other sfx : String} {id? : Option String}
    {a : Author} (h : mkAuthor last other sfx id? = .ok a) :
    pyStrip last ≠ "" ∧
    a = ⟨last, other, sfx, xxh3_64_hexdigest (hstr last other sfx), none⟩ := by
  simp only [mkAuthor] at h
  split at h
  · exact absurd h (by simp)
  · next hne =>
      refine ⟨hne, ?_⟩
      split at h
      · next heq =>
          simp only [Except.ok.injEq] at h
          rw [← h, heq]
      · exact absurd h (by simp)

theorem mkAuthor_ok_of {last : String} (other sfx : String)
    (h : pyStrip last ≠ "") :
    mkAuthor last other sfx none =
      .ok ⟨last, other, sfx, xxh3_64_hexdigest (hstr last other sfx), none⟩ := by
  simp [mkAuthor, h]

/-! ### Captured groups never start with whitespace -/

theorem ws_toLower_fixed {c : Char} (h : pyIsSpace c = true) :
    pyToLower c = c := by
  unfold pyToLower
  split
  · next hr =>
      exfalso
      simp only [pyIsSpace, Bool.or_eq_true, beq_iff_eq, Bool.and_eq_true,
        decide_eq_true_eq] at h
      omega
  · rfl

theorem nonws_of_toLower_eq {a c : Char} (ha : pyIsSpace (pyToLower a) = false)
    (h : pyToLower c = pyToLower a) : pyIsSpace c = false := by
  by_contra hc
  have hc' : pyIsSpace c = true := by
    cases hcc : pyIsSpace c with
    | false => exact absurd hcc hc
    | true => rfl
  rw [ws_toLower_fixed hc'] at h
  rw [h] at hc'
  rw [ha] at hc'
  exact Bool.noConfusion hc'

theorem ciStrip_cons_inv {a : Char} {alt s s' : List Char}
    (h : ciStrip (a :: alt) s = some s') :
    ∃ c cs, s = c :: cs ∧ pyToLower c = pyToLower a ∧ ciStrip alt cs = some s' := by
  cases s with
  | nil => exact absurd h (by simp [ciStrip])
  | cons c cs =>
      refine ⟨c, cs, rfl, ?_, ?_⟩
      · by_contra hne
        simp [ciStrip, hne] at h
      · unfold ciStrip at h
        split at h
        · exact h
        · exact absurd h (by simp)

theorem capture_head_nonws {alt s s' : List Char}
    (h1 : alt ≠ []) (h2 : pyIsSpace (pyToLower alt.headI) = false)
    (h : ciStrip alt s = some s') :
    ∃ c t, s.take alt.length = c :: t ∧ pyIsSpace c = false := by
  cases alt with
  | nil => exact absurd rfl h1
  | cons a ta =>
      obtain ⟨c, cs, rfl, hlc, _⟩ := ciStrip_cons_inv h
      refine ⟨c, cs.take ta.length, rfl, ?_⟩
      exact nonws_of_toLower_eq (by simpa using h2) hlc

theorem prefix_alts_heads :
    ∀ alt ∈ PREFIX_ALTS, alt ≠ [] ∧ pyIsSpace (pyToLower alt.headI) = false := by
  decide

theorem suffix_alts_heads :
    ∀ alt ∈ SUFFIX_ALTS, alt ≠ [] ∧ pyIsSpace (pyToLower alt.headI) = false := by
  decide

theorem matchTok_inv {s g s' : List Char} (h : matchTok s = some (g, s')) :
    g ≠ [] ∧ ∀ c ∈ g, pyIsSpace c = false := by
  simp only [matchTok] at h
  split at h
  · exact absurd h (by simp)
  · next hne =>
      simp only [Option.some.injEq, Prod.mk.injEq] at h
      obtain ⟨rfl, -⟩ := h
      constructor
      · intro hnil
        rw [hnil] at hne
        exact hne rfl
      · intro c hc
        have := List.mem_takeWhile_imp hc
        simpa using this

theorem tokEnd_inv {s g : List Char} (h : tokEnd s = some g) :
    g ≠ [] ∧ ∀ c ∈ g, pyIsSpace c = false := by
  unfold tokEnd at h
  split at h
  · next g' s' heq =>
      split at h
      · simp only [Option.some.injEq] at h
        rw [← h]
        exact matchTok_inv heq
      · exact absurd h (by simp)
  · exact absurd h (by simp)

theorem wsOne_inv {α : Type} {s : List Char} {k : List Char → Option α} {v : α}
    (h : wsOne s k = some v) :
    ∃ c cs, s = c :: cs ∧ pyIsSpace c = true ∧ k cs = some v := by
  unfold wsOne at h
  split at h
  · next c cs =>
      split at h
      · next hws => exact ⟨c, cs, rfl, hws, h⟩
      · exact absurd h (by simp)
  · exact absurd h (by simp)

theorem ciAlt_inv {α : Type} {as : List (List Char)} {s : List Char}
    {k : List Char → List Char → Option α} {v : α} (h : ciAlt as s k = some v) :
    ∃ alt ∈ as, ∃ s', ciStrip alt s = some s' ∧
      k (s.take alt.length) s' = some v := by
  obtain ⟨alt, halt, hsome⟩ := List.exists_of_findSome?_eq_some h
  refine ⟨alt, halt, ?_⟩
  split at hsome
  · next s' heq => exact ⟨s', heq, hsome⟩
  · exact absurd hsome (by simp)

theorem altsEnd_inv {as : List (List Char)} {s g : List Char}
    (h : altsEnd as s = some g) :
    ∃ alt ∈ as, ∃ s', ciStrip alt s = some s' ∧ g = s.take alt.length := by
  obtain ⟨alt, halt, hsome⟩ := List.exists_of_findSome?_eq_some h
  refine ⟨alt, halt, ?_⟩
  split at hsome
  · next s' heq =>
      split at hsome
      · simp only [Option.some.injEq] at hsome
        exact ⟨s', heq, hsome.symm⟩
      · exact absurd hsome (by simp)
  · exact absurd hsome (by simp)

theorem dotStarWsPlus_inv {α : Type} {k : List Char → Option α} {s g1 : List Char}
    {v : α} (h : dotStarWsPlus k s = some (g1, v)) : ∃ u, k u = some v := by
  unfold dotStarWsPlus at h
  obtain ⟨t, -, hsome⟩ := List.exists_of_findSome?_eq_some h
  dsimp only at hsome
  split at hsome
  · exact absurd hsome (by simp)
  · obtain ⟨t2, -, hin⟩ := List.exists_of_findSome?_eq_some hsome
    split at hin
    · next a heq =>
        simp only [Option.some.injEq, Prod.mk.injEq] at hin
        exact ⟨_, heq ▸ congrArg some hin.2⟩
    · exact absurd hin (by simp)

theorem restP1_fst {u g2 g3 g4 : List Char} (h : restP1 u = some (g2, g3, g4)) :
    ∃ c t, g2 = c :: t ∧ pyIsSpace c = false := by
  obtain ⟨alt, halt, s', hstrip, hk⟩ := ciAlt_inv h
  obtain ⟨c, cs, hcs, hws, hrest⟩ := wsOne_inv hk
  obtain ⟨alt2, halt2, s2, hstrip2, hk2⟩ := ciAlt_inv hrest
  obtain ⟨c2, cs2, hcs2, hws2, hrest2⟩ := wsOne_inv hk2
  obtain ⟨g, hg, hval⟩ := Option.map_eq_some'.mp hrest2
  simp only [Prod.mk.injEq] at hval
  obtain ⟨hg2, -, -⟩ := hval
  obtain ⟨hne, hhead⟩ := prefix_alts_heads alt halt
  obtain ⟨c0, t0, htake, hnws⟩ := capture_head_nonws hne hhead hstrip
  exact ⟨c0, t0, by rw [← hg2, htake], hnws⟩

theorem restP2_fst {u g2 g3 : List Char} (h : restP2 u = some (g2, g3)) :
    ∃ c t, g2 = c :: t ∧ pyIsSpace c = false := by
  obtain ⟨alt, halt, s', hstrip, hk⟩ := ciAlt_inv h
  obtain ⟨c, cs, hcs, hws, hrest⟩ := wsOne_inv hk
  obtain ⟨g, hg, hval⟩ := Option.map_eq_some'.mp hrest
  simp only [Prod.mk.injEq] at hval
  obtain ⟨hg2, -⟩ := hval
  obtain ⟨hne, hhead⟩ := prefix_alts_heads alt halt
  obtain ⟨c0, t0, htake, hnws⟩ := capture_head_nonws hne hhead hstrip
  exact ⟨c0, t0, by rw [← hg2, htake], hnws⟩

theorem restP3_fst {u g2 g3 : List Char} (h : restP3 u = some (g2, g3)) :
    ∃ c t, g2 = c :: t ∧ pyIsSpace c = false := by
  unfold restP3 at h
  split at h
  · next g s' heq =>
      obtain ⟨c, cs, hcs, hws, hrest⟩ := wsOne_inv h
      obtain ⟨g', hg', hval⟩ := Option.map_eq_some'.mp hrest
      simp only [Prod.mk.injEq] at hval
      obtain ⟨hg2, -⟩ := hval
      obtain ⟨hne, hnws⟩ := matchTok_inv heq
      cases hgc : g with
      | nil => exact absurd hgc hne
      | cons c0 t0 =>
          refine ⟨c0, t0, by rw [← hg2, hgc], ?_⟩
          exact hnws c0 (by rw [hgc]; exact List.mem_cons_self c0 t0)
  · exact absurd h (by simp)

theorem restP4_fst {u g2 : List Char} (h : restP4 u = some g2) :
    ∃ c t, g2 = c :: t ∧ pyIsSpace c = false := by
  obtain ⟨hne, hnws⟩ := tokEnd_inv h
  cases hgc : g2 with
  | nil => exact absurd hgc hne
  | cons c0 t0 =>
      refine ⟨c0, t0, rfl, ?_⟩
      exact hnws c0 (by rw [hgc]; exact List.mem_cons_self c0 t0)

/-- Either the normalized family name contains a non-whitespace
character, or the input fell through to the fallback and the family is
the whole input. -/
theorem norm_fst (s : String) :
    pyStrip (Author.normalize_author_name s).1 ≠ "" ∨
    (Author.normalize_author_name s).1 = s := by
  unfold Author.normalize_author_name
  cases h1 : dotStarWsPlus restP1 s.data with
  | some p =>
      obtain ⟨g1, g2, g3, g4⟩ := p
      left
      obtain ⟨u, hu⟩ := dotStarWsPlus_inv h1
      obtain ⟨c, t, hg2, hnws⟩ := restP1_fst hu
      refine pyStrip_ne_empty_of_mem (c := c) ?_ hnws
      simp [hg2, String.data_append]
  | none =>
  cases h2 : dotStarWsPlus restP2 s.data with
  | some p =>
      obtain ⟨g1, g2, g3⟩ := p
      left
      obtain ⟨u, hu⟩ := dotStarWsPlus_inv h2
      obtain ⟨c, t, hg2, hnws⟩ := restP2_fst hu
      refine pyStrip_ne_empty_of_mem (c := c) ?_ hnws
      simp [hg2, String.data_append]
  | none =>
  cases h3 : dotStarWsPlus restP3 s.data with
  | some p =>
      obtain ⟨g1, g2, g3⟩ := p
      left
      obtain ⟨u, hu⟩ := dotStarWsPlus_inv h3
      obtain ⟨c, t, hg2, hnws⟩ := restP3_fst hu
      refine pyStrip_ne_empty_of_mem (c := c) ?_ hnws
      simp [hg2]
  | none =>
  cases h4 : dotStarWsPlus restP4 s.data with
  | some p =>
      obtain ⟨g1, g2⟩ := p
      left
      obtain ⟨u, hu⟩ := dotStarWsPlus_inv h4
      obtain ⟨c, t, hg2, hnws⟩ := restP4_fst hu
      refine pyStrip_ne_empty_of_mem (c := c) ?_ hnws
      simp [hg2]
  | none => right; rfl

theorem exists_nonws_of_pyStrip_ne {s : String} (h : pyStrip s ≠ "") :
    ∃ c ∈ s.data, pyIsSpace c = false := by
  by_contra hall
  push_neg at hall
  apply h
  apply (pyStrip_eq_empty_iff s).mpr
  intro c hc
  cases hcc : pyIsSpace c with
  | true => rfl
  | false => exact absurd hcc (hall c hc)

theorem mem_hstr_of_mem_last {last other sfx : String} {c : Char}
    (hc : c ∈ last.data) : c ∈ (hstr last other sfx).data := by
  unfold hstr
  split
  · simp only [String.data_append, List.mem_append]
    tauto
  · simp only [String.data_append, List.mem_append]
    tauto

/-- C10: Author construction requires a non-blank family name; an
empty given name and empty suffix are accepted; and whenever
normalization falls back to `(name, "", "")` for a non-blank input,
the resulting triple is constructible. -/
theorem author_last_name_required :
    (∀ (last other sfx : String) (id? : Option String), pyStrip last = "" →
        ∃ e, mkAuthor last other sfx id? = .error e) ∧
    (∀ last : String, pyStrip last ≠ "" → ∃ a, mkAuthor last "" "" none = .ok a) ∧
    (∀ name : String, pyStrip name ≠ "" →
        Author.normalize_author_name name = (name, "", "") →
        ∃ a, Author.from_string name = .ok a) := by
  refine ⟨?_, ?_, ?_⟩
  · intro last other sfx id? h
    exact ⟨"Author should have a last name", by simp [mkAuthor, h]⟩
  · intro last h
    exact ⟨_, mkAuthor_ok_of "" "" h⟩
  · intro name h hn
    unfold Author.from_string
    rw [hn]
    exact ⟨_, mkAuthor_ok_of "" "" h⟩

/-- Witness for `author_last_name_required`: a whitespace-only family
name is rejected, a bare family name is accepted, and the single-token
fallback for a concrete name is constructible. -/
theorem author_last_name_required_witness :
    (∃ e, mkAuthor " " "x" "" none = .error e) ∧
    (∃ a, mkAuthor "Hinton" "" "" none = .ok a) ∧
    (∃ a, Author.from_string "Hinton" = .ok a) :=
  ⟨author_last_name_required.1 " " "x" "" none (by decide),
   author_last_name_required.2.1 "Hinton" (by decide),
   author_last_name_required.2.2 "Hinton" (by decide) (by decide)⟩

/-- C2 (amended): provided the family name is non-blank, construction
with an explicitly supplied identity succeeds exactly when the
identity equals the recomputed hash of the canonical join string, a
mismatch is a construction error, and with no supplied identity the
recomputed hash is assigned. -/
theorem author_identity_check :
    ∀ last other sfx : String, pyStrip last ≠ "" →
      (∀ sup : String, (∃ a, mkAuthor last other sfx (some sup) = .ok a) ↔
          sup = xxh3_64_hexdigest (hstr last other sfx)) ∧
      (∀ sup : String, sup ≠ xxh3_64_hexdigest (hstr last other sfx) →
          ∃ e, mkAuthor last other sfx (some sup) = .error e) ∧
      (∃ a, mkAuthor last other sfx none = .ok a ∧
          a.id = xxh3_64_hexdigest (hstr last other sfx)) := by
  intro last other sfx h
  refine ⟨?_, ?_, ⟨_, mkAuthor_ok_of other sfx h, rfl⟩⟩
  · intro sup
    constructor
    · rintro ⟨a, ha⟩
      by_contra hne
      simp [mkAuthor, h, hne] at ha
    · rintro rfl
      refine ⟨⟨last, other, sfx, xxh3_64_hexdigest (hstr last other sfx), none⟩, ?_⟩
      simp [mkAuthor, h]
  · intro sup hne
    exact ⟨"id mismatch", by simp [mkAuthor, h, hne]⟩

/-- Witness for `author_identity_check` at a concrete author: matching
supplied identity accepted, mismatched identity rejected, omitted
identity assigned. -/
theorem author_identity_check_witness :
    (∃ a, mkAuthor "Munos" "Rémi" ""
        (some (xxh3_64_hexdigest (hstr "Munos" "Rémi" ""))) = .ok a) ∧
    (∃ e, mkAuthor "Munos" "Rémi" "" (some "deadbeef") = .error e) ∧
    (∃ a, mkAuthor "Munos" "Rémi" "" none = .ok a ∧
        a.id = xxh3_64_hexdigest (hstr "Munos" "Rémi" "")) :=
  ⟨((author_identity_check "Munos" "Rémi" "" (by decide)).1 _).mpr rfl,
   (author_identity_check "Munos" "Rémi" "" (by decide)).2.1 "deadbeef" (by decide),
   (author_identity_check "Munos" "Rémi" "" (by decide)).2.2⟩

/-- C2 counterexample to the claim as stated: with a whitespace-only
family name, construction fails even though the explicitly supplied
identity equals the recomputed hash of the canonical join string, so
"succeeds if and only if the identity matches" does not hold
unconditionally. -/
theorem author_identity_check_cex :
    mkAuthor " " "x" "" (some (xxh3_64_hexdigest (hstr " " "x" ""))) =
      .error "Author should have a last name" ∧
    pyStrip " " = "" := by
  exact ⟨by decide, by decide⟩

/-- The concrete author used to refute the unconditional identity
idempotence claim: a successfully constructed author whose family name
embeds a tab. -/
def authorWithTab : Author :=
  ⟨"van\tHasselt", "Hado", "", xxh3_64_hexdigest "Hado van\tHasselt", none⟩

/-- C3 counterexample: `authorWithTab` constructs successfully, but
re-parsing its canonical display string rewrites the tab separator to
a plain space, so `Author.from_string (str a)` yields a different
canonical join string and therefore a different identity. -/
theorem from_string_id_cex :
    mkAuthor "van\tHasselt" "Hado" "" none = .ok authorWithTab ∧
    strOfAuthor authorWithTab = "Hado van\tHasselt" ∧
    Author.from_string (strOfAuthor authorWithTab) =
      .ok ⟨"van Hasselt", "Hado", "", xxh3_64_hexdigest "Hado van Hasselt", none⟩ ∧
    xxh3_64_hexdigest "Hado van Hasselt" ≠ authorWithTab.id := by
  refine ⟨by decide, by decide, by decide, by decide⟩

/-- C3 (amended): the identity pipeline is idempotent for every
successfully constructed author whose canonical display string
re-normalizes to a triple with the same canonical join string — in
particular for all names whose whitespace consists of the single
separating spaces introduced by the join itself. -/
theorem from_string_id_stable :
    ∀ (last other sfx : String) (id? : Option String) (a : Author),
      mkAuthor last other sfx id? = .ok a →
      hstr3 (Author.normalize_author_name (strOfAuthor a)) = strOfAuthor a →
      ∃ b, Author.from_string (strOfAuthor a) = .ok b ∧ b.id = a.id := by
  intro last other sfx id? a hmk hjoin
  obtain ⟨hlast, rfl⟩ := mkAuthor_ok_inv hmk
  simp only [strOfAuthor, hstr3] at hjoin ⊢
  have hfst : pyStrip (Author.normalize_author_name (hstr last other sfx)).1 ≠ "" := by
    rcases norm_fst (hstr last other sfx) with h | h
    · exact h
    · rw [h]
      obtain ⟨c, hc, hnws⟩ := exists_nonws_of_pyStrip_ne hlast
      exact pyStrip_ne_empty_of_mem (mem_hstr_of_mem_last hc) hnws
  refine ⟨_, mkAuthor_ok_of _ _ hfst, ?_⟩
  simp only
  rw [hjoin]

/-- Witness for `from_string_id_stable` at a concrete author whose
display string re-normalizes stably. -/
theorem from_string_id_stable_witness :
    ∃ b, Author.from_string (strOfAuthor
        ⟨"Munos", "Rémi", "", xxh3_64_hexdigest (hstr "Munos" "Rémi" ""), none⟩) =
      .ok b ∧
    b.id = (⟨"Munos", "Rémi", "", xxh3_64_hexdigest (hstr "Munos" "Rémi" ""),
        none⟩ : Author).id :=
  from_string_id_stable "Munos" "Rémi" "" none _ (mkAuthor_ok_of "Rémi" "" (by decide))
    (by decide)

/-- A minimal concrete metadata value for evaluating `Paper`
construction and reconciliation at specific inputs. -/
def metaEx (v : Int) : PaperMeta :=
  ⟨"title", "abstract", [], v, ["cs.LG"]⟩

/-- C5: the versioned-id invariant is not enforced as documented.  The
code's own comment says the id "doesn't end in v1", but the assertion
only checks that the final character is not `'v'`, so the genuinely
versioned identifier `"2301.12345v1"` (with valid timestamps) is
accepted, while the timestamp and ordering invariants do fail as the
claim states. -/
theorem paper_versioned_id_accepted :
    mkPaper "2301.12345v1" "2023-01-01 00:00:00" "2023-01-02 00:00:00"
        (metaEx 1) true =
      .ok ⟨"2301.12345v1", "2023-01-01 00:00:00", "2023-01-02 00:00:00",
        metaEx 1, true⟩ ∧
    (∃ e, mkPaper "2301.12345v" "2023-01-01 00:00:00" "2023-01-02 00:00:00"
        (metaEx 1) true = .error e) ∧
    (∃ e, mkPaper "2301.12345" "2023-01-03 00:00:00" "2023-01-02 00:00:00"
        (metaEx 1) true = .error e) ∧
    (∃ e, mkPaper "2301.12345" "2023-01-01 00:00:00" "not a date"
        (metaEx 1) true = .error e) := by
  refine ⟨by decide, ⟨"2301.12345v is not a valid arxiv identifier.", by decide⟩,
    ⟨"Cant update before publishing", by decide⟩,
    ⟨"not a date is not a valid sqlite datetime", by decide⟩⟩

/-! ### Lemmas about the paper table -/

theorem lookup_update_paper_self {t : List (String × PaperRow)} {id : String}
    {row : PaperRow} (r : PaperRow) (h : t.lookup id = some row) :
    (update_paper t id r).lookup id = some r := by
  induction t with
  | nil => simp [List.lookup] at h
  | cons kv rest ih =>
      obtain ⟨k, v⟩ := kv
      show List.lookup id
          ((if k = id then (k, r) else (k, v)) :: update_paper rest id r) = some r
      by_cases hk : k = id
      · subst hk
        rw [if_pos rfl]
        simp [List.lookup]
      · rw [if_neg hk]
        have hbe : (id == k) = false := by
          rw [beq_eq_false_iff_ne]
          exact fun he => hk he.symm
        have h' : rest.lookup id = some row := by
          simpa [List.lookup, hbe] using h
        simp only [List.lookup, hbe]
        exact ih h'

theorem lookup_update_paper_other {t : List (String × PaperRow)} {id q : String}
    (r : PaperRow) (h : q ≠ id) :
    (update_paper t id r).lookup q = t.lookup q := by
  induction t with
  | nil => rfl
  | cons kv rest ih =>
      obtain ⟨k, v⟩ := kv
      show List.lookup q
          ((if k = id then (k, r) else (k, v)) :: update_paper rest id r) =
        List.lookup q ((k, v) :: rest)
      by_cases hk : k = id
      · have hbe : (q == k) = false := by
          rw [beq_eq_false_iff_ne]
          intro he
          exact h (he.trans hk)
        rw [if_pos hk]
        have hbe2 : (q == id) = false := beq_eq_false_iff_ne.mpr h
        simp only [List.lookup, hbe, hbe2, hk]
        exact ih
      · rw [if_neg hk]
        by_cases hq : q = k
        · subst hq
          simp [List.lookup]
        · have hbe : (q == k) = false := beq_eq_false_iff_ne.mpr hq
          simp only [List.lookup, hbe]
          exact ih

theorem update_paper_length (t : List (String × PaperRow)) (id : String)
    (r : PaperRow) : (update_paper t id r).length = t.length := by
  simp [update_paper]

/-- C1: per-paper reconciliation obeys the monotonic version law.  For
a stored row at version `v` and a fetched paper at version `v'`:
`v' > v` rewrites the row so the stored version equals `v'` and counts
it as updated; `v' = v` leaves the whole store untouched and counts it
as unchanged; `v' < v` leaves the store and all counters untouched and
raises the error-log signal. -/
theorem update_monotonic_version_law :
    ∀ (db : DB) (c : Counters) (p : Paper) (row : PaperRow),
      db.paper.lookup p.id = some row →
      (row.meta.version < p.meta.version →
        (updateStep db c p).1.paper.lookup p.id = some (rowOfUpdate p) ∧
        (rowOfUpdate p).meta.version = p.meta.version ∧
        (updateStep db c p).2.1 = { c with upd_cnt := c.upd_cnt + 1 } ∧
        (updateStep db c p).2.2 = false) ∧
      (row.meta.version = p.meta.version →
        (updateStep db c p).1 = db ∧
        (updateStep db c p).2.1 = { c with old_cnt := c.old_cnt + 1 } ∧
        (updateStep db c p).2.2 = false) ∧
      (p.meta.version < row.meta.version →
        (updateStep db c p).1 = db ∧
        (updateStep db c p).2.1 = c ∧
        (updateStep db c p).2.2 = true) := by
  intro db c p row hlk
  refine ⟨?_, ?_, ?_⟩
  · intro hlt
    have hne : ¬ row.meta.version = p.meta.version := by omega
    refine ⟨?_, rfl, ?_, ?_⟩
    · simp only [updateStep, hlk, if_neg hne, if_pos hlt]
      exact lookup_update_paper_self _ hlk
    · simp [updateStep, hlk, if_neg hne, if_pos hlt]
    · simp [updateStep, hlk, if_neg hne, if_pos hlt]
  · intro heq
    refine ⟨?_, ?_, ?_⟩
    · simp [updateStep, hlk, if_pos heq]
    · simp [updateStep, hlk, if_pos heq]
    · simp [updateStep, hlk, if_pos heq]
  · intro hgt
    have hne : ¬ row.meta.version = p.meta.version := by omega
    have hnlt : ¬ row.meta.version < p.meta.version := by omega
    refine ⟨?_, ?_, ?_⟩
    · simp [updateStep, hlk, if_neg hne, if_neg hnlt]
    · simp [updateStep, hlk, if_neg hne, if_neg hnlt]
    · simp [updateStep, hlk, if_neg hne, if_neg hnlt]

/-- A concrete stored row, stores and fetched papers for evaluating
the reconciliation theorems. -/
def rowW : PaperRow :=
  ⟨"2023-01-02 00:00:00", "2023-01-01 00:00:00", metaEx 1, true⟩

/-- A one-paper store with empty author and authorship tables. -/
def dbW : DB := ⟨[("p1", rowW)], [], []⟩

/-- A one-paper store with one author row and one authorship edge. -/
def dbW2 : DB := ⟨[("p1", rowW)], [⟨"a1", "L", "O", "", true⟩], [("a1", "p1")]⟩

/-- A fetched paper with the same id as `rowW` at a given version. -/
def pW (v : Int) : Paper :=
  ⟨"p1", "2023-01-01 00:00:00", "2023-01-03 00:00:00", metaEx v, true⟩

/-- Witness for `update_monotonic_version_law`: a store holding one
paper at version 1 reconciled against fetched versions 2, 1 and 0. -/
theorem update_monotonic_version_law_witness :
    ((updateStep dbW ⟨0, 0, 0⟩ (pW 2)).1.paper.lookup "p1" =
      some (rowOfUpdate (pW 2))) ∧
    ((updateStep dbW ⟨0, 0, 0⟩ (pW 1)).1 = dbW) ∧
    ((updateStep dbW ⟨0, 0, 0⟩ (pW 0)).2.2 = true) :=
  ⟨((update_monotonic_version_law dbW ⟨0, 0, 0⟩ (pW 2) rowW (by decide)).1
      (by decide)).1,
   ((update_monotonic_version_law dbW ⟨0, 0, 0⟩ (pW 1) rowW (by decide)).2.1
      (by decide)).1,
   ((update_monotonic_version_law dbW ⟨0, 0, 0⟩ (pW 0) rowW (by decide)).2.2
      (by decide)).2.2⟩

/-- C7: on the known-older-version path, reconciliation rewrites only
the matching paper row; the author table, the authorship relation,
every other paper row and the row count are unchanged. -/
theorem update_path_frame :
    ∀ (db : DB) (c : Counters) (p : Paper) (row : PaperRow),
      db.paper.lookup p.id = some row →
      row.meta.version < p.meta.version →
      (updateStep db c p).1.author = db.author ∧
      (updateStep db c p).1.authorship = db.authorship ∧
      (∀ q : String, q ≠ p.id →
        (updateStep db c p).1.paper.lookup q = db.paper.lookup q) ∧
      (updateStep db c p).1.paper.lookup p.id = some (rowOfUpdate p) ∧
      (updateStep db c p).1.paper.length = db.paper.length := by
  intro db c p row hlk hlt
  have hne : ¬ row.meta.version = p.meta.version := by omega
  refine ⟨?_, ?_, ?_, ?_, ?_⟩
  · simp [updateStep, hlk, if_neg hne, if_pos hlt]
  · simp [updateStep, hlk, if_neg hne, if_pos hlt]
  · intro q hq
    simp only [updateStep, hlk, if_neg hne, if_pos hlt]
    exact lookup_update_paper_other _ hq
  · simp only [updateStep, hlk, if_neg hne, if_pos hlt]
    exact lookup_update_paper_self _ hlk
  · simp only [updateStep, hlk, if_neg hne, if_pos hlt]
    exact update_paper_length _ _ _

/-- Witness for `update_path_frame`: the concrete store `dbW2`,
updated from version 1 to 2, keeps its author and authorship tables. -/
theorem update_path_frame_witness :
    (updateStep dbW2 ⟨0, 0, 0⟩ (pW 2)).1.author = dbW2.author ∧
    (updateStep dbW2 ⟨0, 0, 0⟩ (pW 2)).1.authorship = dbW2.authorship :=
  ⟨(update_path_frame dbW2 ⟨0, 0, 0⟩ (pW 2) rowW (by decide) (by decide)).1,
   (update_path_frame dbW2 ⟨0, 0, 0⟩ (pW 2) rowW (by decide) (by decide)).2.1⟩

/-! ### Lemmas about the co-author insertion fold -/

theorem authorStep_paper (pid : String) (d : DB) (a : Author) :
    (authorStep pid d a).paper = d.paper := by
  simp only [authorStep]
  split <;> rfl

theorem authorStep_authorship (pid : String) (d : DB) (a : Author) :
    (authorStep pid d a).authorship = d.authorship ++ [(a.id, pid)] := by
  simp only [authorStep]
  split <;> rfl

theorem authorStep_author_cases {pid : String} {d : DB} {a : Author}
    {r : AuthorRow} (h : r ∈ (authorStep pid d a).author) :
    r ∈ d.author ∨ r = authorSaveRow a := by
  simp only [authorStep] at h
  split at h
  · exact Or.inl h
  · rcases List.mem_append.mp h with h | h
    · exact Or.inl h
    · exact Or.inr (List.mem_singleton.mp h)

theorem authorStep_author_mono {pid : String} {d : DB} {a : Author}
    {r : AuthorRow} (h : r ∈ d.author) : r ∈ (authorStep pid d a).author := by
  simp only [authorStep]
  split
  · exact h
  · exact List.mem_append_left _ h

theorem authorStep_present (pid : String) (d : DB) (a : Author) :
    ∃ r ∈ (authorStep pid d a).author, r.id = a.id := by
  simp only [authorStep]
  split
  · next hany =>
      obtain ⟨r, hr, hid⟩ := List.any_eq_true.mp hany
      exact ⟨r, hr, beq_iff_eq.mp hid⟩
  · exact ⟨authorSaveRow a, List.mem_append_right _ (List.mem_singleton.mpr rfl), rfl⟩

theorem authorStep_filter {pid : String} {d : DB} {a : Author} {i : String}
    (hex : ∃ r ∈ d.author, r.id = i) :
    (authorStep pid d a).author.filter (fun r => r.id == i) =
      d.author.filter (fun r => r.id == i) := by
  simp only [authorStep]
  split
  · rfl
  · next hany =>
      by_cases hai : a.id = i
      · exfalso
        apply hany
        obtain ⟨r, hr, hid⟩ := hex
        exact List.any_eq_true.mpr ⟨r, hr, beq_iff_eq.mpr (hid.trans hai.symm)⟩
      · show (d.author ++ [authorSaveRow a]).filter (fun r => r.id == i) = _
        rw [List.filter_append]
        have : (authorSaveRow a).id = a.id := rfl
        have hf : [authorSaveRow a].filter (fun r => r.id == i) = [] := by
          simp [List.filter, authorSaveRow, beq_eq_false_iff_ne.mpr hai]
        rw [hf, List.append_nil]

theorem foldl_authorStep_paper (pid : String) (as : List Author) :
    ∀ d : DB, (as.foldl (authorStep pid) d).paper = d.paper := by
  induction as with
  | nil => intro d; rfl
  | cons a as ih =>
      intro d
      rw [List.foldl_cons, ih, authorStep_paper]

theorem foldl_authorStep_authorship (pid : String) (as : List Author) :
    ∀ d : DB, (as.foldl (authorStep pid) d).authorship =
      d.authorship ++ as.map (fun a => (a.id, pid)) := by
  induction as with
  | nil => intro d; simp
  | cons a as ih =>
      intro d
      rw [List.foldl_cons, ih, authorStep_authorship, List.map_cons,
        List.append_assoc, List.singleton_append]

theorem foldl_authorStep_author_cases (pid : String) (as : List Author) :
    ∀ (d : DB) (r : AuthorRow), r ∈ (as.foldl (authorStep pid) d).author →
      r ∈ d.author ∨ ∃ a ∈ as, r = authorSaveRow a := by
  induction as with
  | nil => intro d r h; exact Or.inl h
  | cons a as ih =>
      intro d r h
      rw [List.foldl_cons] at h
      rcases ih (authorStep pid d a) r h with h' | ⟨a', ha', hr⟩
      · rcases authorStep_author_cases h' with h'' | h''
        · exact Or.inl h''
        · exact Or.inr ⟨a, List.mem_cons_self a as, h''⟩
      · exact Or.inr ⟨a', List.mem_cons_of_mem a ha', hr⟩

theorem foldl_authorStep_author_mono (pid : String) (as : List Author) :
    ∀ (d : DB) (r : AuthorRow), r ∈ d.author →
      r ∈ (as.foldl (authorStep pid) d).author := by
  induction as with
  | nil => intro d r h; exact h
  | cons a as ih =>
      intro d r h
      rw [List.foldl_cons]
      exact ih _ _ (authorStep_author_mono h)

theorem foldl_authorStep_present (pid : String) (as : List Author) :
    ∀ d : DB, ∀ a ∈ as, ∃ r ∈ (as.foldl (authorStep pid) d).author, r.id = a.id := by
  induction as with
  | nil => intro d a h; exact absurd h (List.not_mem_nil a)
  | cons a0 as ih =>
      intro d a h
      rw [List.foldl_cons]
      rcases List.mem_cons.mp h with rfl | h'
      · obtain ⟨r, hr, hid⟩ := authorStep_present pid d a
        exact ⟨r, foldl_authorStep_author_mono pid as _ r hr, hid⟩
      · exact ih _ a h'

theorem foldl_authorStep_filter (pid : String) (as : List Author) :
    ∀ (d : DB) (i : String), (∃ r ∈ d.author, r.id = i) →
      (as.foldl (authorStep pid) d).author.filter (fun r => r.id == i) =
        d.author.filter (fun r => r.id == i) := by
  induction as with
  | nil => intro d i _; rfl
  | cons a as ih =>
      intro d i hex
      rw [List.foldl_cons]
      obtain ⟨r, hr, hid⟩ := hex
      have hex' : ∃ r ∈ (authorStep pid d a).author, r.id = i :=
        ⟨r, authorStep_author_mono hr, hid⟩
      rw [ih _ i hex', authorStep_filter ⟨r, hr, hid⟩]

/-- C6: on the unknown-paper path, the paper is inserted (with the
schema's default visibility), an authorship edge is appended for every
author listed in the metadata, co-authors are inserted only when their
identity is not already in the author table, and every newly inserted
co-author row has `followed = false`. -/
theorem update_insert_unknown :
    ∀ (db : DB) (c : Counters) (p : Paper),
      db.paper.lookup p.id = none →
      (updateStep db c p).2.2 = false ∧
      (updateStep db c p).2.1 = { c with new_cnt := c.new_cnt + 1 } ∧
      (updateStep db c p).1.paper = db.paper ++ [(p.id, rowOfInsert p)] ∧
      (updateStep db c p).1.authorship =
        db.authorship ++ p.meta.authors.map (fun a => (a.id, p.id)) ∧
      (∀ r ∈ (updateStep db c p).1.author, r ∈ db.author ∨
        (r.followed = false ∧ ∃ a ∈ p.meta.authors, r = authorSaveRow a)) ∧
      (∀ a ∈ p.meta.authors,
        ∃ r ∈ (updateStep db c p).1.author, r.id = a.id) ∧
      (∀ a ∈ p.meta.authors, (∃ r ∈ db.author, r.id = a.id) →
        (updateStep db c p).1.author.filter (fun r => r.id == a.id) =
          db.author.filter (fun r => r.id == a.id)) := by
  intro db c p hlk
  have hstep : updateStep db c p =
      (p.meta.authors.foldl (authorStep p.id)
        { db with paper := db.paper ++ [(p.id, rowOfInsert p)] },
       { c with new_cnt := c.new_cnt + 1 }, false) := by
    simp only [updateStep, hlk]
  rw [hstep]
  refine ⟨rfl, rfl, ?_, ?_, ?_, ?_, ?_⟩
  · rw [foldl_authorStep_paper]
  · rw [foldl_authorStep_authorship]
  · intro r hr
    rcases foldl_authorStep_author_cases p.id p.meta.authors _ r hr with h | ⟨a, ha, hr'⟩
    · exact Or.inl h
    · exact Or.inr ⟨by rw [hr']; rfl, a, ha, hr'⟩
  · intro a ha
    exact foldl_authorStep_present p.id p.meta.authors _ a ha
  · intro a ha hex
    exact foldl_authorStep_filter p.id p.meta.authors _ a.id hex

/-- A fetched paper with a fresh id whose metadata lists one already
stored co-author (id `"a1"`, present in `dbW2`) and one new one. -/
def pNew : Paper :=
  ⟨"p2", "2023-01-01 00:00:00", "2023-01-03 00:00:00",
   ⟨"t", "b", [⟨"L", "O", "", "a1", none⟩, ⟨"M", "N", "", "a2", none⟩], 1,
    ["cs.LG"]⟩, true⟩

/-- Witness for `update_insert_unknown`: inserting `pNew` into `dbW2`
appends the paper row and both authorship edges. -/
theorem update_insert_unknown_witness :
    (updateStep dbW2 ⟨0, 0, 0⟩ pNew).1.paper =
      dbW2.paper ++ [("p2", rowOfInsert pNew)] ∧
    (updateStep dbW2 ⟨0, 0, 0⟩ pNew).1.authorship =
      dbW2.authorship ++ [("a1", "p2"), ("a2", "p2")] :=
  ⟨(update_insert_unknown dbW2 ⟨0, 0, 0⟩ pNew (by decide)).2.2.1,
   (update_insert_unknown dbW2 ⟨0, 0, 0⟩ pNew (by decide)).2.2.2.1⟩

/-! ### The code-point order on `updated` strings -/

theorem lexLe_head_le {a b : Char} {as bs : List Char}
    (h : lexLe (a :: as) (b :: bs) = true) : a.toNat ≤ b.toNat := by
  by_contra h'
  push_neg at h'
  have h1 : ¬ a.toNat < b.toNat := by omega
  simp [lexLe, h1, h'] at h

theorem lexLe_total : ∀ x y : List Char, lexLe x y = true ∨ lexLe y x = true
  | [], _ => Or.inl rfl
  | _ :: _, [] => Or.inr rfl
  | a :: as, b :: bs => by
      by_cases h1 : a.toNat < b.toNat
      · left
        simp [lexLe, h1]
      · by_cases h2 : b.toNat < a.toNat
        · right
          simp [lexLe, h2]
        · rcases lexLe_total as bs with h | h
          · left
            simp [lexLe, h1, h2, h]
          · right
            simp [lexLe, h1, h2, h]

theorem lexLe_trans :
    ∀ {x y z : List Char}, lexLe x y = true → lexLe y z = true → lexLe x z = true
  | [], _, _, _, _ => rfl
  | _ :: _, [], _, h1, _ => by simp [lexLe] at h1
  | _ :: _, _ :: _, [], _, h2 => by simp [lexLe] at h2
  | a :: as, b :: bs, c :: cs, h1, h2 => by
      have hab := lexLe_head_le h1
      have hbc := lexLe_head_le h2
      by_cases hac : a.toNat < c.toNat
      · simp [lexLe, hac]
      · have ha : a.toNat = b.toNat := by omega
        have hb : b.toNat = c.toNat := by omega
        have h1' : lexLe as bs = true := by
          simpa [lexLe, show ¬ a.toNat < b.toNat by omega,
            show ¬ b.toNat < a.toNat by omega] using h1
        have h2' : lexLe bs cs = true := by
          simpa [lexLe, show ¬ b.toNat < c.toNat by omega,
            show ¬ c.toNat < b.toNat by omega] using h2
        simpa [lexLe, hac, show ¬ c.toNat < a.toNat by omega] using
          lexLe_trans h1' h2'

instance : IsTotal Paper updLE :=
  ⟨fun p q => lexLe_total p.updated.data q.updated.data⟩

instance : IsTrans Paper updLE :=
  ⟨fun _ _ _ => lexLe_trans⟩

theorem sortByUpdated_sorted (l : List Paper) :
    List.Sorted updLE (sortByUpdated l) :=
  List.sorted_insertionSort updLE l

/-! ### The bounded retry loop -/

theorem fetchGo_all_short (pages : Nat → List Paper) :
    ∀ rem idx, (∀ j, j < max rem 1 → (pages (idx + j)).length ≠ BATCH_SIZE) →
      fetchGo pages rem idx = .error "arXiv API not reachable, exiting."
  | 0, idx, h => by
      have h0 := h 0 (by omega)
      rw [Nat.add_zero] at h0
      simp only [fetchGo]
      rw [if_neg h0]
  | 1, idx, h => by
      have h0 := h 0 (by omega)
      rw [Nat.add_zero] at h0
      simp only [fetchGo]
      rw [if_neg h0]
  | n + 2, idx, h => by
      have h0 := h 0 (by omega)
      rw [Nat.add_zero] at h0
      simp only [fetchGo]
      rw [if_neg h0]
      apply fetchGo_all_short pages (n + 1) (idx + 1)
      intro j hj
      have hh := h (j + 1) (by omega)
      rw [show idx + (j + 1) = idx + 1 + j by omega] at hh
      exact hh

theorem fetchGo_first_full (pages : Nat → List Paper) :
    ∀ rem idx i, i < max rem 1 → (pages (idx + i)).length = BATCH_SIZE →
      (∀ j, j < i → (pages (idx + j)).length ≠ BATCH_SIZE) →
      fetchGo pages rem idx = .ok (sortByUpdated (pages (idx + i)))
  | 0, idx, i, hi, hfull, _ => by
      have hi0 : i = 0 := by omega
      subst hi0
      rw [Nat.add_zero] at hfull
      simp only [fetchGo]
      rw [if_pos hfull, Nat.add_zero]
  | 1, idx, i, hi, hfull, _ => by
      have hi0 : i = 0 := by omega
      subst hi0
      rw [Nat.add_zero] at hfull
      simp only [fetchGo]
      rw [if_pos hfull, Nat.add_zero]
  | n + 2, idx, i, hi, hfull, hshort => by
      cases i with
      | zero =>
          rw [Nat.add_zero] at hfull
          simp only [fetchGo]
          rw [if_pos hfull, Nat.add_zero]
      | succ i' =>
          have h0 := hshort 0 (by omega)
          rw [Nat.add_zero] at h0
          simp only [fetchGo]
          rw [if_neg h0]
          have := fetchGo_first_full pages (n + 1) (idx + 1) i' (by omega)
            (by rw [show idx + 1 + i' = idx + (i' + 1) by omega]; exact hfull)
            (fun j hj => by
              have hh := hshort (j + 1) (by omega)
              rw [show idx + (j + 1) = idx + 1 + j by omega] at hh
              exact hh)
          rw [this, show idx + 1 + i' = idx + (i' + 1) by omega]

/-- C8: `fetch_batch` always terminates within at most
`max max_tries 1` page fetches (at most `max_tries` for any positive
budget; the default in the source is 5): if attempt `i` within the
budget is the first full page, the batch is returned sorted by the
`updated` timestamp and of full length; if every attempt within the
budget is short or empty, the fatal error is raised.  The jittered
`time.sleep` backoff between attempts has no observable effect on the
result and is not modelled. -/
theorem fetch_batch_bounded_retry :
    ∀ (pages : Nat → List Paper) (max_tries : Nat),
      (∀ i, i < max max_tries 1 → (pages i).length = BATCH_SIZE →
        (∀ j, j < i → (pages j).length ≠ BATCH_SIZE) →
        fetch_batch pages max_tries = .ok (sortByUpdated (pages i)) ∧
        (sortByUpdated (pages i)).length = BATCH_SIZE ∧
        List.Sorted updLE (sortByUpdated (pages i))) ∧
      ((∀ j, j < max max_tries 1 → (pages j).length ≠ BATCH_SIZE) →
        fetch_batch pages max_tries = .error "arXiv API not reachable, exiting.") ∧
      ((∃ l, fetch_batch pages max_tries = .ok l ∧ List.Sorted updLE l) ∨
        fetch_batch pages max_tries = .error "arXiv API not reachable, exiting.") := by
  intro pages max_tries
  have hfull : ∀ i, i < max max_tries 1 → (pages i).length = BATCH_SIZE →
      (∀ j, j < i → (pages j).length ≠ BATCH_SIZE) →
      fetch_batch pages max_tries = .ok (sortByUpdated (pages i)) ∧
      (sortByUpdated (pages i)).length = BATCH_SIZE ∧
      List.Sorted updLE (sortByUpdated (pages i)) := by
    intro i hi hlen hsh
    refine ⟨?_, ?_, sortByUpdated_sorted _⟩
    · have hgo := fetchGo_first_full pages max_tries 0 i hi
        (by rw [Nat.zero_add]; exact hlen)
        (fun j hj => by rw [Nat.zero_add]; exact hsh j hj)
      rw [Nat.zero_add] at hgo
      exact hgo
    · rw [sortByUpdated, List.length_insertionSort]
      exact hlen
  refine ⟨hfull, ?_, ?_⟩
  · intro hall
    exact fetchGo_all_short pages max_tries 0
      (fun j hj => by rw [Nat.zero_add]; exact hall j hj)
  · by_cases hall : ∀ j, j < max max_tries 1 → (pages j).length ≠ BATCH_SIZE
    · right
      exact fetchGo_all_short pages max_tries 0
        (fun j hj => by rw [Nat.zero_add]; exact hall j hj)
    · left
      push_neg at hall
      obtain ⟨j0, hj0, hfl⟩ := hall
      have hex : ∃ i, i < max max_tries 1 ∧ (pages i).length = BATCH_SIZE :=
        ⟨j0, hj0, hfl⟩
      classical
      let i := Nat.find hex
      obtain ⟨hi1, hi2⟩ := Nat.find_spec hex
      have hmin : ∀ j, j < i → (pages j).length ≠ BATCH_SIZE := by
        intro j hj hfj
        exact Nat.find_min hex hj ⟨by omega, hfj⟩
      obtain ⟨hres, -, hsor⟩ := hfull i hi1 hi2 hmin
      exact ⟨sortByUpdated (pages i), hres, hsor⟩

/-- Witness for `fetch_batch_bounded_retry`: an upstream that always
returns an empty page exhausts the default budget of 5 attempts and
raises the fatal error. -/
theorem fetch_batch_bounded_retry_witness :
    fetch_batch (fun _ => ([] : List Paper)) 5 =
      .error "arXiv API not reachable, exiting." :=
  (fetch_batch_bounded_retry (fun _ => []) 5).2.1 (fun j _ => by decide)

/-- C9: `AuthorDB.get_papers_` appends the fetched rows to the
author's existing `_papers` list instead of replacing it (initializing
only when it is `None`): calling it twice with the same arguments (the
query's `datetime("now")` endpoint held fixed as the explicit `now`
parameter) leaves the fetched list appended twice, so for an author
object whose list starts out `None`, every matching paper occurs twice
— the operation is not idempotent on the author object. -/
theorem get_papers_twice_appends :
    ∀ (db : DB) (a : AuthorObj) (start now : String) (only_visible : Bool),
      (AuthorDB_get_papers_ db (AuthorDB_get_papers_ db a start now only_visible)
          start now only_visible)._papers =
        some (a._papers.getD [] ++
          rowsToPapers (get_papers_by_author_id db a.author.id start now)
            only_visible ++
          rowsToPapers (get_papers_by_author_id db a.author.id start now)
            only_visible) ∧
      (a._papers = none → ∀ p : Paper,
        ((AuthorDB_get_papers_ db (AuthorDB_get_papers_ db a start now only_visible)
            start now only_visible)._papers.getD []).count p =
          2 * (rowsToPapers (get_papers_by_author_id db a.author.id start now)
            only_visible).count p) := by
  intro db a start now ov
  constructor
  · simp [AuthorDB_get_papers_]
  · intro hnone p
    simp [AuthorDB_get_papers_, hnone, List.count_append, two_mul]

/-- A concrete author object (matching the `"a1"` row of `dbW2`) with
an uninitialized paper list. -/
def aObjW : AuthorObj := ⟨⟨"L", "O", "", "a1", none⟩, none⟩

/-- Witness for `get_papers_twice_appends`: two identical queries
against `dbW2` leave the single matching paper in the list twice. -/
theorem get_papers_twice_appends_witness :
    (AuthorDB_get_papers_ dbW2
        (AuthorDB_get_papers_ dbW2 aObjW "2023-01-01 00:00:00"
          "2023-12-31 00:00:00" false)
        "2023-01-01 00:00:00" "2023-12-31 00:00:00" false)._papers =
      some (aObjW._papers.getD [] ++
        rowsToPapers (get_papers_by_author_id dbW2 aObjW.author.id
          "2023-01-01 00:00:00" "2023-12-31 00:00:00") false ++
        rowsToPapers (get_papers_by_author_id dbW2 aObjW.author.id
          "2023-01-01 00:00:00" "2023-12-31 00:00:00") false) :=
  (get_papers_twice_appends dbW2 aObjW "2023-01-01 00:00:00"
    "2023-12-31 00:00:00" false).1
